import Mathlib

/-!
# Task-list state manager of `src/src/App.js`

A shallow embedding of the state logic of the `App` component: the `todos`
collection, the `input` text field and the `filter` mode, together with the
handlers `addTodo`, `toggleTodo`, `deleteTodo`, the derived `filteredTodos`
view, the statistics and the `useState` initialiser that hydrates `todos`
from `localStorage`.

Modelling conventions.
* A task is the record `{ id, text, completed }` built at `App.js:46`.
  `id` is the number returned by `Date.now()`, an integer; `completed` is a
  boolean; `text` is a string.
* JavaScript strings are embedded as Lean `String`s (sequences of code points).
  Every white-space character recognised by `String.prototype.trim` lies in the
  basic multilingual plane, so trimming is unaffected by the encoding.
* `Date.now()` is an explicit argument of `addTodo`.
* A React state update `setX(v)` is the replacement of the field `x` of the
  state record; every handler runs to completion on the state of the last
  render.
-/

namespace TodoApp

/-! ## Data model -/

/-- A task as stored in the `todos` array (`App.js:46`). -/
structure Todo where
  id : Int
  text : String
  completed : Bool
deriving DecidableEq, Repr

/-- The three `useState` cells of `App` that the task logic reads or writes
(`App.js:24-29`). -/
structure AppState where
  todos : List Todo
  input : String
  filter : String
deriving DecidableEq, Repr

/-! ## `String.prototype.trim` -/

/-- The code points removed by `String.prototype.trim`: ECMAScript `WhiteSpace`
(TAB, VT, FF, ZWNBSP and the Unicode category Zs) and `LineTerminator`
(LF, CR, LS, PS). -/
def isWhiteSpace (c : Char) : Bool :=
  let n := c.toNat
  n == 0x09 || n == 0x0A || n == 0x0B || n == 0x0C || n == 0x0D || n == 0x20 ||
  n == 0xA0 || n == 0x1680 || (0x2000 ≤ n && n ≤ 0x200A) || n == 0x2028 ||
  n == 0x2029 || n == 0x202F || n == 0x205F || n == 0x3000 || n == 0xFEFF

/-- Trimming of a list of characters: leading and trailing white space is dropped. -/
def trimChars (cs : List Char) : List Char :=
  ((cs.dropWhile isWhiteSpace).reverse.dropWhile isWhiteSpace).reverse

/-- The method `s.trim()`. -/
def trim (s : String) : String := String.mk (trimChars s.data)

/-- Truthiness of a string value: only the empty string is falsy. -/
def truthy (s : String) : Bool := !s.data.isEmpty

/-! ## Handlers (`App.js:44-59`) -/

/-- The handler `addTodo` (`App.js:44-49`); `now` is the value of `Date.now()`. -/
def addTodo (now : Int) (st : AppState) : AppState :=
  if truthy (trim st.input) then
    { st with
      todos := st.todos ++ [{ id := now, text := st.input, completed := false }]
      input := "" }
  else st

/-- The handler `toggleTodo` (`App.js:51-55`). -/
def toggleTodo (id : Int) (st : AppState) : AppState :=
  { st with
    todos := st.todos.map fun todo =>
      if todo.id = id then { todo with completed := !todo.completed } else todo }

/-- The handler `deleteTodo` (`App.js:57-59`). -/
def deleteTodo (id : Int) (st : AppState) : AppState :=
  { st with todos := st.todos.filter fun todo => todo.id != id }

/-- The derived value `filteredTodos` (`App.js:61-65`). -/
def filteredTodos (st : AppState) : List Todo :=
  st.todos.filter fun todo =>
    if st.filter = "active" then !todo.completed
    else if st.filter = "completed" then todo.completed
    else true

/-- The derived value `completedCount` (`App.js:68`). -/
def completedCount (st : AppState) : Nat :=
  (st.todos.filter fun todo => todo.completed).length

/-- The derived value `activeCount` (`App.js:69`). -/
def activeCount (st : AppState) : Nat :=
  st.todos.length - completedCount st

/-! ## Double-precision arithmetic of the statistics (`App.js:70`)

`completedCount / todos.length` and the product with `100` are IEEE 754 binary64
operations with round-to-nearest, ties-to-even. A non-negative finite double below
`2^53` is written `mant / 2^scale` with `mant < 2^53` and `scale ≤ 1074`. -/

/-- A non-negative double, the value `mant / 2^scale`. -/
structure Double where
  mant : Nat
  scale : Nat
deriving DecidableEq, Repr

/-- The rational value of a double. -/
def Double.val (d : Double) : ℚ := (d.mant : ℚ) / 2 ^ d.scale

/-- The integer nearest to `a / b`, ties to the even neighbour. -/
def roundHalfEven (a b : Nat) : Nat :=
  let q := a / b
  let r := a % b
  if 2 * r < b then q
  else if b < 2 * r then q + 1
  else if q % 2 = 0 then q else q + 1

/-- The binary scale at which `a / b` is rounded: the least `k ≥ start` with
`2^52 ≤ a / b * 2^k`, capped by the subnormal scale reached when the fuel runs out. -/
def normShift (a b : Nat) : Nat → Nat → Nat
  | 0, k => k
  | fuel + 1, k => if 2 ^ 52 * b ≤ a * 2 ^ k then k else normShift a b fuel (k + 1)

/-- The double nearest to the rational `a / b`, for `0 ≤ a / b < 2^53` and `0 < b`:
53 significant bits for normal values, spacing `2^-1074` for subnormal ones. -/
def roundToDouble (a b : Nat) : Double :=
  let k := normShift a b 1074 0
  { mant := roundHalfEven (a * 2 ^ k) b, scale := k }

/-- The quotient `x / y` of two integers below `2^53`, which are doubles themselves. -/
def fdiv (x y : Nat) : Double := roundToDouble x y

/-- The product `d * k` of a double with an integer below `2^53`. -/
def fmul (d : Double) (k : Nat) : Double := roundToDouble (d.mant * k) (2 ^ d.scale)

/-- The function `Math.round` on a non-negative double: the nearest integer, a tie
going to the larger one; the result is `⌊d + 1/2⌋`, computed exactly. -/
def mathRound (d : Double) : Nat := (2 * d.mant + 2 ^ d.scale) / 2 ^ (d.scale + 1)

/-- The derived value `completionRate` (`App.js:70`). -/
def completionRate (st : AppState) : Nat :=
  if st.todos.length > 0 then
    mathRound (fmul (fdiv (completedCount st) st.todos.length) 100)
  else 0

/-! ## Hydration from `localStorage` (`App.js:24-27`) -/

/-- A value produced by `JSON.parse`. A number keeps its exact decimal value
`± mantissa * 10^exponent`; a string is its sequence of code units, a literal
character outside the basic multilingual plane being kept as one code point; an
object is its members in source order. -/
inductive JSONValue where
  | null
  | bool (b : Bool)
  | number (negative : Bool) (mantissa : Nat) (exponent : Int)
  | string (units : List Nat)
  | array (elements : List JSONValue)
  | object (members : List (List Nat × JSONValue))
deriving Repr

/-- The ways the model of `JSON.parse` ends without a value: the `SyntaxError`
thrown by `JSON.parse`, and exhaustion of the recursion budget of the model. -/
inductive JSError where
  | syntaxError
  | outOfFuel
deriving DecidableEq, Repr

/-- JSON white space: space, TAB, LF, CR. -/
def isJSONWhiteSpace (c : Char) : Bool :=
  c == ' ' || c == '\t' || c == '\n' || c == '\r'

/-- Dropping leading JSON white space. -/
def skipWs (cs : List Char) : List Char := cs.dropWhile isJSONWhiteSpace

/-- The value of a hexadecimal digit. -/
def hexDigit (c : Char) : Option Nat :=
  if '0' ≤ c ∧ c ≤ '9' then some (c.toNat - '0'.toNat)
  else if 'a' ≤ c ∧ c ≤ 'f' then some (c.toNat - 'a'.toNat + 10)
  else if 'A' ≤ c ∧ c ≤ 'F' then some (c.toNat - 'A'.toNat + 10)
  else none

/-- The characters of a JSON string after the opening quote, up to and including
the closing quote. -/
def parseStringBody : List Char → Option (List Nat × List Char)
  | [] => none
  | '"' :: rest => some ([], rest)
  | '\\' :: 'u' :: a :: b :: c :: d :: rest =>
    match hexDigit a, hexDigit b, hexDigit c, hexDigit d, parseStringBody rest with
    | some x, some y, some z, some w, some (units, out) =>
      some ((((x * 16 + y) * 16 + z) * 16 + w) :: units, out)
    | _, _, _, _, _ => none
  | '\\' :: e :: rest =>
    let unit : Option Nat :=
      if e = '"' then some 0x22 else if e = '\\' then some 0x5C
      else if e = '/' then some 0x2F else if e = 'b' then some 0x08
      else if e = 'f' then some 0x0C else if e = 'n' then some 0x0A
      else if e = 'r' then some 0x0D else if e = 't' then some 0x09
      else none
    match unit, parseStringBody rest with
    | some u, some (units, out) => some (u :: units, out)
    | _, _ => none
  | c :: rest =>
    if c.toNat < 0x20 ∨ c = '\\' then none
    else match parseStringBody rest with
      | some (units, out) => some (c.toNat :: units, out)
      | none => none

/-- A maximal run of decimal digits, most significant first. -/
def spanDigits (cs : List Char) : List Nat × List Char :=
  ((cs.takeWhile Char.isDigit).map fun c => c.toNat - '0'.toNat, cs.dropWhile Char.isDigit)

/-- The number denoted by a run of decimal digits. -/
def digitsValue (ds : List Nat) : Nat := ds.foldl (fun acc d => acc * 10 + d) 0

/-- A JSON number: `-? (0 | [1-9][0-9]*) (. [0-9]+)? ([eE] [+-]? [0-9]+)?`. -/
def parseNumber (cs : List Char) : Option (JSONValue × List Char) :=
  let (negative, cs1) :=
    match cs with
    | '-' :: rest => (true, rest)
    | _ => (false, cs)
  let intPart : Option (List Nat × List Char) :=
    match cs1 with
    | '0' :: rest => some ([0], rest)
    | _ =>
      match spanDigits cs1 with
      | ([], _) => none
      | (ds, rest) => some (ds, rest)
  match intPart with
  | none => none
  | some (ids, cs2) =>
    let fracPart : Option (List Nat × List Char) :=
      match cs2 with
      | '.' :: rest =>
        match spanDigits rest with
        | ([], _) => none
        | (ds, rest') => some (ds, rest')
      | _ => some ([], cs2)
    match fracPart with
    | none => none
    | some (fds, cs3) =>
      let expPart : Option (Int × List Char) :=
        let expDigits (positive : Bool) (rest : List Char) : Option (Int × List Char) :=
          match spanDigits rest with
          | ([], _) => none
          | (ds, rest') =>
            some (if positive then (digitsValue ds : Int) else - (digitsValue ds : Int), rest')
        match cs3 with
        | 'e' :: '+' :: rest => expDigits true rest
        | 'e' :: '-' :: rest => expDigits false rest
        | 'e' :: rest => expDigits true rest
        | 'E' :: '+' :: rest => expDigits true rest
        | 'E' :: '-' :: rest => expDigits false rest
        | 'E' :: rest => expDigits true rest
        | _ => some (0, cs3)
      match expPart with
      | none => none
      | some (e, cs4) =>
        some (JSONValue.number negative (digitsValue (ids ++ fds)) (e - fds.length), cs4)

mutual
/-- A JSON value at the head of the input; the budget bounds the nesting. -/
def parseValue : Nat → List Char → Except JSError (JSONValue × List Char)
  | 0, _ => .error .outOfFuel
  | fuel + 1, cs =>
    match cs with
    | 'n' :: 'u' :: 'l' :: 'l' :: rest => .ok (.null, rest)
    | 't' :: 'r' :: 'u' :: 'e' :: rest => .ok (.bool true, rest)
    | 'f' :: 'a' :: 'l' :: 's' :: 'e' :: rest => .ok (.bool false, rest)
    | '"' :: rest =>
      match parseStringBody rest with
      | some (units, out) => .ok (.string units, out)
      | none => .error .syntaxError
    | '[' :: rest =>
      match skipWs rest with
      | ']' :: out => .ok (.array [], out)
      | inner =>
        match parseElements fuel inner with
        | .ok (vs, out) => .ok (.array vs, out)
        | .error e => .error e
    | '{' :: rest =>
      match skipWs rest with
      | '}' :: out => .ok (.object [], out)
      | inner =>
        match parseMembers fuel inner with
        | .ok (ms, out) => .ok (.object ms, out)
        | .error e => .error e
    | _ =>
      match parseNumber cs with
      | some r => .ok r
      | none => .error .syntaxError
/-- The elements of a non-empty array, up to and including the closing bracket. -/
def parseElements : Nat → List Char → Except JSError (List JSONValue × List Char)
  | 0, _ => .error .outOfFuel
  | fuel + 1, cs =>
    match parseValue fuel (skipWs cs) with
    | .error e => .error e
    | .ok (v, out) =>
      match skipWs out with
      | ']' :: out' => .ok ([v], out')
      | ',' :: out' =>
        match parseElements fuel out' with
        | .ok (vs, out'') => .ok (v :: vs, out'')
        | .error e => .error e
      | _ => .error .syntaxError
/-- The members of a non-empty object, up to and including the closing brace. -/
def parseMembers : Nat → List Char →
    Except JSError (List (List Nat × JSONValue) × List Char)
  | 0, _ => .error .outOfFuel
  | fuel + 1, cs =>
    match skipWs cs with
    | '"' :: rest =>
      match parseStringBody rest with
      | none => .error .syntaxError
      | some (key, out) =>
        match skipWs out with
        | ':' :: out1 =>
          match parseValue fuel (skipWs out1) with
          | .error e => .error e
          | .ok (v, out2) =>
            match skipWs out2 with
            | '}' :: out3 => .ok ([(key, v)], out3)
            | ',' :: out3 =>
              match parseMembers fuel out3 with
              | .ok (ms, out4) => .ok ((key, v) :: ms, out4)
              | .error e => .error e
            | _ => .error .syntaxError
        | _ => .error .syntaxError
    | _ => .error .syntaxError
end

/-- The function `JSON.parse` on a string: a value surrounded by white space, or a
`SyntaxError`. The budget `2 * length + 2` covers every nesting the text can hold. -/
def JSON.parse (text : String) : Except JSError JSONValue :=
  match parseValue (2 * text.data.length + 2) (skipWs text.data) with
  | .error e => .error e
  | .ok (v, out) =>
    match skipWs out with
    | [] => .ok v
    | _ => .error .syntaxError

/-- The initialiser of the `todos` state (`App.js:24-27`); `saved` is the result of
`localStorage.getItem("todos")`, `none` standing for `null`. A thrown exception is
the `error` outcome. -/
def initialTodos (saved : Option String) : Except JSError JSONValue :=
  match saved with
  | none => .ok (.array [])
  | some s => if truthy s then JSON.parse s else .ok (.array [])

/-! ## Sequences of user intents -/

/-- The user intents that reach the task state: typing into the text field
(`App.js:238`), submitting it (`App.js:239,244`, with the clock reading taken by
`Date.now()`), toggling and deleting a task (`App.js:416,453`) and selecting a
filter (`App.js:344`). -/
inductive Action where
  | setInput (value : String)
  | addTodo (now : Int)
  | toggleTodo (id : Int)
  | deleteTodo (id : Int)
  | setFilter (key : String)
deriving DecidableEq, Repr

/-- One event handler run. -/
def step (st : AppState) : Action → AppState
  | .setInput value => { st with input := value }
  | .addTodo now => addTodo now st
  | .toggleTodo id => toggleTodo id st
  | .deleteTodo id => deleteTodo id st
  | .setFilter key => { st with filter := key }

/-- A sequence of event handler runs, oldest first. -/
def run (st : AppState) (actions : List Action) : AppState :=
  actions.foldl step st

/-- The ids of a collection, in order. -/
def ids (todos : List Todo) : List Int := todos.map Todo.id

/-- Every submission in the sequence that creates a task reads a clock value
that no task of the collection carries at that moment. -/
def freshClocks : AppState → List Action → Bool
  | _, [] => true
  | st, a :: rest =>
    (match a with
      | .addTodo now => !truthy (trim st.input) || !(ids st.todos).contains now
      | _ => true) && freshClocks (step st a) rest

/-! ## Sample collections -/

/-- A collection of `n` tasks with ids `0 .. n - 1`, the first `c` of them completed. -/
def sampleTodos (c n : Nat) : List Todo :=
  (List.range n).map fun i => { id := (i : Int), text := "task", completed := decide (i < c) }

/-- A state holding `sampleTodos c n`, with an empty text field and no filtering. -/
def sampleState (c n : Nat) : AppState :=
  { todos := sampleTodos c n, input := "", filter := "all" }

/-! ## Auxiliary facts -/

theorem truthy_trim_false_of_whiteSpace (s : String)
    (h : ∀ c ∈ s.data, isWhiteSpace c = true) : truthy (trim s) = false := by
  have h1 : s.data.dropWhile isWhiteSpace = [] := by
    rw [List.dropWhile_eq_nil_iff]; exact h
  simp [truthy, trim, trimChars, h1]

theorem addTodo_of_truthy (now : Int) (st : AppState) (h : truthy (trim st.input) = true) :
    addTodo now st =
      { st with
        todos := st.todos ++ [{ id := now, text := st.input, completed := false }]
        input := "" } := by
  simp [addTodo, h]

theorem addTodo_of_not_truthy (now : Int) (st : AppState)
    (h : truthy (trim st.input) = false) : addTodo now st = st := by
  simp [addTodo, h]

theorem toggle_toggle_todo (id : Int) (t : Todo) :
    (fun todo : Todo =>
        if todo.id = id then { todo with completed := !todo.completed } else todo)
      ((fun todo : Todo =>
        if todo.id = id then { todo with completed := !todo.completed } else todo) t) = t := by
  obtain ⟨i, x, c⟩ := t
  by_cases h : i = id <;> simp [h]

theorem ids_toggleTodo (id : Int) (st : AppState) :
    ids (toggleTodo id st).todos = ids st.todos := by
  simp only [ids, toggleTodo, List.map_map]
  apply List.map_congr_left
  intro t _
  by_cases h : t.id = id <;> simp [h]

theorem ids_deleteTodo_sublist (id : Int) (st : AppState) :
    (ids (deleteTodo id st).todos).Sublist (ids st.todos) := by
  simp only [ids, deleteTodo]
  exact (List.filter_sublist _).map _

/-! ## `addTodo` -/

/-- C1 (as stated, refuted): for the input `" a "` the appended task does not
carry the trimmed text `"a"`; the handler stores the input as typed. -/
theorem C1_counterexample :
    truthy (trim " a ") = true ∧
      (addTodo 1000 { todos := [], input := " a ", filter := "all" }).todos.getLast?.map Todo.text
        = some " a " ∧
      (addTodo 1000 { todos := [], input := " a ", filter := "all" }).todos.getLast?.map Todo.text
        ≠ some (trim " a ") := by
  decide

/-- C1 (amended): whenever the trimmed input is non-empty, `addTodo` yields a
collection one longer, whose earlier elements are the old collection in order and
whose last element is a new task with the clock reading as id, `completed = false`
and `text` equal to the input exactly as typed (untrimmed); the text field is
cleared. -/
theorem C1_addTodo_appends (now : Int) (st : AppState)
    (h : truthy (trim st.input) = true) :
    (addTodo now st).todos.length = st.todos.length + 1 ∧
      (addTodo now st).todos.take st.todos.length = st.todos ∧
      (addTodo now st).todos.getLast? =
        some { id := now, text := st.input, completed := false } ∧
      (addTodo now st).input = "" := by
  rw [addTodo_of_truthy now st h]
  simp

theorem C1_addTodo_appends_witness :
    (addTodo 1000 { todos := [⟨1, "x", true⟩], input := " a ", filter := "all" }).todos.length
        = 2 ∧
      (addTodo 1000 { todos := [⟨1, "x", true⟩], input := " a ", filter := "all" }).todos.getLast?
        = some { id := 1000, text := " a ", completed := false } := by
  have h := C1_addTodo_appends 1000
    { todos := [⟨1, "x", true⟩], input := " a ", filter := "all" } (by decide)
  exact ⟨h.1, h.2.2.1⟩

/-- C2: when the input is empty or consists only of white space, `addTodo` is a
no-op: the whole state, and in particular the collection, is unchanged. -/
theorem C2_addTodo_blank_noop (now : Int) (st : AppState)
    (h : ∀ c ∈ st.input.data, isWhiteSpace c = true) :
    addTodo now st = st ∧ (addTodo now st).todos = st.todos := by
  have h1 := addTodo_of_not_truthy now st (truthy_trim_false_of_whiteSpace st.input h)
  exact ⟨h1, by rw [h1]⟩

theorem C2_addTodo_blank_noop_witness :
    addTodo 1000 { todos := [⟨1, "x", true⟩], input := " \t\n ", filter := "all" } =
        { todos := [⟨1, "x", true⟩], input := " \t\n ", filter := "all" } ∧
      addTodo 1000 { todos := [⟨1, "x", true⟩], input := "", filter := "all" } =
        { todos := [⟨1, "x", true⟩], input := "", filter := "all" } :=
  ⟨(C2_addTodo_blank_noop 1000
      { todos := [⟨1, "x", true⟩], input := " \t\n ", filter := "all" } (by decide)).1,
   (C2_addTodo_blank_noop 1000
      { todos := [⟨1, "x", true⟩], input := "", filter := "all" } (by decide)).1⟩

/-! ## `toggleTodo` -/

/-- C5: `toggleTodo` is an involution: toggling the same id twice gives back the
original state, hence the original collection element by element. -/
theorem C5_toggleTodo_involution (id : Int) (st : AppState) :
    toggleTodo id (toggleTodo id st) = st ∧
      (toggleTodo id (toggleTodo id st)).todos = st.todos := by
  have h : toggleTodo id (toggleTodo id st) = st := by
    obtain ⟨todos, input, filter⟩ := st
    simp only [toggleTodo, List.map_map, AppState.mk.injEq, and_true]
    conv_rhs => rw [← List.map_id todos]
    apply List.map_congr_left
    intro t _
    exact toggle_toggle_todo id t
  exact ⟨h, by rw [h]⟩

/-- C6: `toggleTodo` keeps the length, the ids and the texts position by position,
negates `completed` on every task whose id matches and leaves every other task, the
text field and the filter unchanged; without a matching task the collection is
unchanged. -/
theorem C6_toggleTodo_frame (id : Int) (st : AppState) :
    (toggleTodo id st).todos.length = st.todos.length ∧
      ids (toggleTodo id st).todos = ids st.todos ∧
      (toggleTodo id st).todos.map Todo.text = st.todos.map Todo.text ∧
      (∀ (i : Nat) (t : Todo), st.todos[i]? = some t →
        ∃ t', (toggleTodo id st).todos[i]? = some t' ∧ t'.id = t.id ∧ t'.text = t.text ∧
          (t.id = id → t'.completed = !t.completed) ∧ (t.id ≠ id → t' = t)) ∧
      ((∀ t ∈ st.todos, t.id ≠ id) → (toggleTodo id st).todos = st.todos) ∧
      (toggleTodo id st).input = st.input ∧ (toggleTodo id st).filter = st.filter := by
  refine ⟨by simp [toggleTodo], ids_toggleTodo id st, ?_, ?_, ?_, rfl, rfl⟩
  · simp only [toggleTodo, List.map_map]
    apply List.map_congr_left
    intro t _
    by_cases h : t.id = id <;> simp [h]
  · intro i t hi
    refine ⟨if t.id = id then { t with completed := !t.completed } else t, ?_, ?_⟩
    · simp [toggleTodo, hi]
    · by_cases h : t.id = id <;> simp [h]
  · intro hno
    simp only [toggleTodo]
    conv_rhs => rw [← List.map_id st.todos]
    apply List.map_congr_left
    intro t ht
    simp [hno t ht]

theorem C6_toggleTodo_frame_witness :
    (toggleTodo 2 { todos := [⟨1, "a", false⟩, ⟨2, "b", false⟩], input := "", filter := "all" }).todos
        = [⟨1, "a", false⟩, ⟨2, "b", true⟩] ∧
      (toggleTodo 7 { todos := [⟨1, "a", false⟩, ⟨2, "b", false⟩], input := "", filter := "all" }).todos
        = [⟨1, "a", false⟩, ⟨2, "b", false⟩] :=
  ⟨by decide,
   (C6_toggleTodo_frame 7
      { todos := [⟨1, "a", false⟩, ⟨2, "b", false⟩], input := "", filter := "all" }).2.2.2.2.1
      (by decide)⟩

/-! ## `deleteTodo` -/

/-- C7: `deleteTodo` yields exactly the tasks whose id differs from the given one,
each unchanged and in their original relative order; when the ids are pairwise
distinct and some task carries the id, the length drops by exactly one. -/
theorem C7_deleteTodo_removes (id : Int) (st : AppState) :
    (deleteTodo id st).todos = st.todos.filter (fun t => decide (t.id ≠ id)) ∧
      (deleteTodo id st).todos.Sublist st.todos ∧
      (∀ t, t ∈ (deleteTodo id st).todos ↔ t ∈ st.todos ∧ t.id ≠ id) ∧
      ((ids st.todos).Nodup → (∃ t ∈ st.todos, t.id = id) →
        (deleteTodo id st).todos.length + 1 = st.todos.length) := by
  have hfilter : (deleteTodo id st).todos = st.todos.filter (fun t => decide (t.id ≠ id)) := by
    simp only [deleteTodo]
    apply List.filter_congr
    intro t _
    by_cases h : t.id = id <;> simp [h]
  refine ⟨hfilter, ?_, ?_, ?_⟩
  · rw [hfilter]; exact List.filter_sublist _
  · intro t; rw [hfilter]; simp
  · intro hnd hex
    rw [hfilter]
    generalize st.todos = l at hnd hex
    induction l with
    | nil => obtain ⟨t, ht, _⟩ := hex; simp at ht
    | cons a l ih =>
      simp only [ids, List.map_cons, List.nodup_cons, List.mem_map, not_exists, not_and] at hnd
      by_cases ha : a.id = id
      · have hrest : l.filter (fun t => decide (t.id ≠ id)) = l := by
          rw [List.filter_eq_self]
          intro t ht
          have := hnd.1 t ht
          simp only [ne_eq, decide_not, Bool.not_eq_eq_eq_not, Bool.not_true,
            decide_eq_false_iff_not]
          intro h
          exact this (h.trans ha.symm)
        have hd : decide (a.id ≠ id) = false := by simp [ha]
        rw [List.filter_cons, hd, hrest]
        simp
      · have hex' : ∃ t ∈ l, t.id = id := by
          obtain ⟨t, ht, hid⟩ := hex
          rcases List.mem_cons.mp ht with rfl | ht
          · exact absurd hid ha
          · exact ⟨t, ht, hid⟩
        have hd : decide (a.id ≠ id) = true := by simp [ha]
        have hlen := ih hnd.2 hex'
        rw [List.filter_cons, hd]
        simp only [if_true, List.length_cons]
        omega

theorem C7_deleteTodo_removes_witness :
    (deleteTodo 2
        { todos := [⟨1, "a", false⟩, ⟨2, "b", true⟩, ⟨3, "c", false⟩], input := "",
          filter := "all" }).todos.length + 1 = 3 :=
  (C7_deleteTodo_removes 2
    { todos := [⟨1, "a", false⟩, ⟨2, "b", true⟩, ⟨3, "c", false⟩], input := "",
      filter := "all" }).2.2.2 (by decide) ⟨⟨2, "b", true⟩, by decide, rfl⟩

/-- C8: deleting the same id a second time leaves the result of the first delete
unchanged, and deleting an id that no task carries leaves the state unchanged. -/
theorem C8_deleteTodo_idempotent (id : Int) (st : AppState) :
    deleteTodo id (deleteTodo id st) = deleteTodo id st ∧
      ((∀ t ∈ st.todos, t.id ≠ id) → deleteTodo id st = st) := by
  constructor
  · simp [deleteTodo, List.filter_filter]
  · intro h
    obtain ⟨todos, input, filter⟩ := st
    simp only [deleteTodo, AppState.mk.injEq, and_true]
    rw [List.filter_eq_self]
    intro t ht
    simpa using h t ht

theorem C8_deleteTodo_idempotent_witness :
    deleteTodo 9 { todos := [⟨1, "a", false⟩, ⟨2, "b", true⟩], input := "", filter := "all" } =
      { todos := [⟨1, "a", false⟩, ⟨2, "b", true⟩], input := "", filter := "all" } :=
  (C8_deleteTodo_idempotent 9
    { todos := [⟨1, "a", false⟩, ⟨2, "b", true⟩], input := "", filter := "all" }).2 (by decide)

/-! ## `filteredTodos` -/

/-- C9: the `"all"` view is the collection itself, the `"active"` view is the
subsequence of tasks with `completed = false`, the `"completed"` view the subsequence
with `completed = true`; every task of the collection lies in exactly one of the two,
no task lies in both, their union is the collection and their lengths add up to its
length. -/
theorem C9_filteredTodos_partition (todos : List Todo) (input : String) :
    filteredTodos { todos := todos, input := input, filter := "all" } = todos ∧
      filteredTodos { todos := todos, input := input, filter := "active" } =
        todos.filter (fun t => !t.completed) ∧
      filteredTodos { todos := todos, input := input, filter := "completed" } =
        todos.filter (fun t => t.completed) ∧
      (filteredTodos { todos := todos, input := input, filter := "active" }).Sublist todos ∧
      (filteredTodos { todos := todos, input := input, filter := "completed" }).Sublist todos ∧
      (∀ t, t ∈ todos ↔
        (t ∈ filteredTodos { todos := todos, input := input, filter := "active" } ∨
          t ∈ filteredTodos { todos := todos, input := input, filter := "completed" })) ∧
      (∀ t, ¬ (t ∈ filteredTodos { todos := todos, input := input, filter := "active" } ∧
          t ∈ filteredTodos { todos := todos, input := input, filter := "completed" })) ∧
      (filteredTodos { todos := todos, input := input, filter := "active" }).length +
          (filteredTodos { todos := todos, input := input, filter := "completed" }).length =
        (filteredTodos { todos := todos, input := input, filter := "all" }).length := by
  have hall : filteredTodos { todos := todos, input := input, filter := "all" } = todos := by
    have h1 : ¬ ("all" = "active") := by decide
    have h2 : ¬ ("all" = "completed") := by decide
    simp [filteredTodos, h1, h2]
  have hact : filteredTodos { todos := todos, input := input, filter := "active" } =
      todos.filter (fun t => !t.completed) := by
    simp only [filteredTodos, if_true]
  have hcomp : filteredTodos { todos := todos, input := input, filter := "completed" } =
      todos.filter (fun t => t.completed) := by
    have h1 : ¬ ("completed" = "active") := by decide
    simp only [filteredTodos, h1, if_false, if_true]
  refine ⟨hall, hact, hcomp, ?_, ?_, ?_, ?_, ?_⟩
  · rw [hact]; exact List.filter_sublist _
  · rw [hcomp]; exact List.filter_sublist _
  · intro t
    rw [hact, hcomp]
    simp only [List.mem_filter]
    cases t.completed <;> simp
  · intro t
    rw [hact, hcomp]
    simp only [List.mem_filter]
    cases t.completed <;> simp
  · rw [hall, hact, hcomp]
    clear hall hact hcomp
    induction todos with
    | nil => rfl
    | cons a l ih =>
      cases hc : a.completed <;> simp [List.filter_cons, hc] <;> omega

/-! ## Uniqueness of ids -/

theorem nodup_ids_step (st : AppState) (a : Action) (hnd : (ids st.todos).Nodup)
    (hfresh : ∀ now, a = Action.addTodo now → truthy (trim st.input) = true →
      now ∉ ids st.todos) :
    (ids (step st a).todos).Nodup := by
  cases a with
  | setInput value => exact hnd
  | setFilter key => exact hnd
  | toggleTodo id => simp only [step]; rw [ids_toggleTodo]; exact hnd
  | deleteTodo id => exact hnd.sublist (ids_deleteTodo_sublist id st)
  | addTodo now =>
    simp only [step]
    cases h : truthy (trim st.input) with
    | false => rw [addTodo_of_not_truthy now st h]; exact hnd
    | true =>
      rw [addTodo_of_truthy now st h]
      have hnot := hfresh now rfl h
      simp only [ids, List.map_append, List.map_cons, List.map_nil] at hnot ⊢
      rw [List.nodup_append]
      refine ⟨hnd, List.nodup_singleton _, ?_⟩
      intro x hx hx'
      rw [List.mem_singleton] at hx'
      exact hnot (hx' ▸ hx)

/-- C4 (as stated, refuted): a collection with pairwise distinct ids and one
`addTodo` whose clock reading equals the id of a stored task give a collection in
which two tasks share an id. -/
theorem C4_counterexample :
    (ids (AppState.mk [⟨1000, "a", false⟩] "b" "all").todos).Nodup ∧
      ids (run (AppState.mk [⟨1000, "a", false⟩] "b" "all") [Action.addTodo 1000]).todos
        = [1000, 1000] ∧
      ¬ (ids (run (AppState.mk [⟨1000, "a", false⟩] "b" "all")
          [Action.addTodo 1000]).todos).Nodup := by
  decide

/-- C4 (amended): starting from a collection with pairwise distinct ids, every
sequence of typing, `addTodo`, `toggleTodo`, `deleteTodo` and filter selection in
which each task-creating `addTodo` reads a clock value carried by no task of the
collection at that moment yields a collection with pairwise distinct ids; `toggleTodo`
and `deleteTodo` preserve distinctness unconditionally. -/
theorem C4_ids_nodup_of_freshClocks (actions : List Action) (st : AppState)
    (hnd : (ids st.todos).Nodup) (hfresh : freshClocks st actions = true) :
    (ids (run st actions).todos).Nodup ∧
      (∀ id, (ids (toggleTodo id st).todos).Nodup) ∧
      (∀ id, (ids (deleteTodo id st).todos).Nodup) := by
  refine ⟨?_, fun id => nodup_ids_step st (.toggleTodo id) hnd (by simp),
    fun id => nodup_ids_step st (.deleteTodo id) hnd (by simp)⟩
  induction actions generalizing st with
  | nil => exact hnd
  | cons a rest ih =>
    simp only [freshClocks, Bool.and_eq_true] at hfresh
    obtain ⟨ha, hrest⟩ := hfresh
    refine ih (step st a) (nodup_ids_step st a hnd ?_) hrest
    rintro now rfl htr
    simpa [htr] using ha

theorem C4_ids_nodup_of_freshClocks_witness :
    (ids (run (AppState.mk [⟨1000, "a", false⟩] "" "all")
      [.setInput "b", .addTodo 1001, .toggleTodo 1000, .setInput "c", .addTodo 1002,
        .deleteTodo 1001]).todos).Nodup ∧
      ids (run (AppState.mk [⟨1000, "a", false⟩] "" "all")
      [.setInput "b", .addTodo 1001, .toggleTodo 1000, .setInput "c", .addTodo 1002,
        .deleteTodo 1001]).todos = [1000, 1002] :=
  ⟨(C4_ids_nodup_of_freshClocks
      [.setInput "b", .addTodo 1001, .toggleTodo 1000, .setInput "c", .addTodo 1002,
        .deleteTodo 1001]
      (AppState.mk [⟨1000, "a", false⟩] "" "all") (by decide)
      (by decide)).1,
    by decide⟩

/-! ## Rounding error of the double-precision model -/

theorem roundHalfEven_bounds (a b : Nat) (hb : 0 < b) :
    2 * a ≤ 2 * (b * roundHalfEven a b) + b ∧ 2 * (b * roundHalfEven a b) ≤ 2 * a + b := by
  have hdm := Nat.div_add_mod a b
  have hr := Nat.mod_lt a hb
  simp only [roundHalfEven]
  split_ifs <;> (try simp only [Nat.mul_add, Nat.mul_one]) <;> omega

theorem le_roundHalfEven (a b : Nat) : a / b ≤ roundHalfEven a b := by
  simp only [roundHalfEven]
  split_ifs <;> omega

theorem normShift_le (a b : Nat) (fuel k : Nat) : normShift a b fuel k ≤ k + fuel := by
  induction fuel generalizing k with
  | zero => simp [normShift]
  | succ f ih =>
    simp only [normShift]
    split_ifs
    · omega
    · have := ih (k + 1); omega

theorem normShift_spec (a b : Nat) (fuel k : Nat) (h : 2 ^ 52 * b ≤ a * 2 ^ (k + fuel)) :
    2 ^ 52 * b ≤ a * 2 ^ normShift a b fuel k := by
  induction fuel generalizing k with
  | zero => simpa [normShift] using h
  | succ f ih =>
    simp only [normShift]
    split_ifs with hk
    · exact hk
    · apply ih
      have : k + 1 + f = k + (f + 1) := by omega
      rw [this]; exact h

theorem normShift_zero (b : Nat) (hb : 0 < b) (fuel k : Nat) :
    normShift 0 b fuel k = k + fuel := by
  induction fuel generalizing k with
  | zero => simp [normShift]
  | succ f ih =>
    simp only [normShift]
    have : ¬ (2 ^ 52 * b ≤ 0 * 2 ^ k) := by
      have : 0 < 2 ^ 52 * b := Nat.mul_pos (by positivity) hb
      omega
    rw [if_neg this, ih]; omega

/-- The relative error of one rounding is at most `2^-53`, as long as the value is
not below the normal range. -/
theorem roundToDouble_error (a b : Nat) (hb : 0 < b) (h : 2 ^ 52 * b ≤ a * 2 ^ 1074) :
    |(roundToDouble a b).val - (a : ℚ) / b| ≤ (a : ℚ) / b / 2 ^ 53 := by
  have hk := normShift_spec a b 1074 0 (by rw [Nat.zero_add]; exact h)
  obtain ⟨h1, h2⟩ := roundHalfEven_bounds (a * 2 ^ normShift a b 1074 0) b hb
  simp only [roundToDouble, Double.val]
  generalize normShift a b 1074 0 = k at hk h1 h2
  generalize roundHalfEven (a * 2 ^ k) b = m at h1 h2
  have hbq : (0 : ℚ) < b := by exact_mod_cast hb
  have hk' : (2 : ℚ) ^ 52 * b ≤ a * 2 ^ k := by exact_mod_cast hk
  have h1' : (2 : ℚ) * (a * 2 ^ k) ≤ 2 * (b * m) + b := by exact_mod_cast h1
  have h2' : (2 : ℚ) * (b * m) ≤ 2 * (a * 2 ^ k) + b := by exact_mod_cast h2
  have h53 : (2 : ℚ) ^ 53 = 2 * 2 ^ 52 := by norm_num
  rw [h53]
  have hP : (0 : ℚ) < 2 ^ 52 := by positivity
  generalize (2 : ℚ) ^ 52 = P at hk' hP
  have hK : (0 : ℚ) < 2 ^ k := by positivity
  generalize (2 : ℚ) ^ k = K at hk' h1' h2' hK
  have hA : |(m : ℚ) / K - a / b| ≤ 1 / (2 * K) := by
    have e : (m : ℚ) / K - a / b = (b * m - a * K) / (b * K) := by
      field_simp
      ring
    rw [e, abs_le]
    constructor
    · rw [le_div_iff₀ (by positivity)]
      have : -(1 / (2 * K)) * (b * K) = -((b : ℚ) / 2) := by
        field_simp
        ring
      rw [this]
      linarith
    · rw [div_le_iff₀ (by positivity)]
      have : 1 / (2 * K) * (b * K) = (b : ℚ) / 2 := by
        field_simp
        ring
      rw [this]
      linarith
  have hB : 1 / (2 * K) ≤ (a : ℚ) / b / (2 * P) := by
    rw [div_div, div_le_div_iff₀ (by positivity) (by positivity)]
    linarith
  exact hA.trans hB

theorem le_mant_roundToDouble (a b : Nat) (hb : 0 < b) (h : 2 ^ 52 * b ≤ a * 2 ^ 1074) :
    2 ^ 52 ≤ (roundToDouble a b).mant := by
  have hk := normShift_spec a b 1074 0 (by rw [Nat.zero_add]; exact h)
  simp only [roundToDouble]
  refine le_trans ?_ (le_roundHalfEven _ _)
  rw [Nat.le_div_iff_mul_le hb]
  exact hk

theorem scale_roundToDouble_le (a b : Nat) : (roundToDouble a b).scale ≤ 1074 := by
  have := normShift_le a b 1074 0
  simp only [roundToDouble]
  omega

/-- The computed percentage differs from the exact one by at most `300 / 2^53`. -/
theorem fmul_fdiv_close (c n : Nat) (hc : 1 ≤ c) (hcn : c ≤ n) (hn : n < 2 ^ 32) :
    |(fmul (fdiv c n) 100).val - 100 * (c : ℚ) / n| ≤ 300 / 2 ^ 53 := by
  have hn0 : 0 < n := by omega
  have hfuel : 2 ^ 52 * n ≤ c * 2 ^ 1074 := by
    calc 2 ^ 52 * n ≤ 2 ^ 52 * 2 ^ 32 := Nat.mul_le_mul_left _ hn.le
      _ = 2 ^ 84 := by rw [← Nat.pow_add]
      _ ≤ 2 ^ 1074 := Nat.pow_le_pow_right (by decide) (by decide)
      _ ≤ c * 2 ^ 1074 := Nat.le_mul_of_pos_left _ hc
  have hd := roundToDouble_error c n hn0 hfuel
  have hm := le_mant_roundToDouble c n hn0 hfuel
  have hs := scale_roundToDouble_le c n
  have hfuel2 : 2 ^ 52 * 2 ^ (roundToDouble c n).scale ≤
      (roundToDouble c n).mant * 100 * 2 ^ 1074 := by
    calc 2 ^ 52 * 2 ^ (roundToDouble c n).scale
        ≤ (roundToDouble c n).mant * 2 ^ 1074 :=
          Nat.mul_le_mul hm (Nat.pow_le_pow_right (by norm_num) hs)
      _ ≤ (roundToDouble c n).mant * 100 * 2 ^ 1074 :=
          Nat.mul_le_mul_right _ (Nat.le_mul_of_pos_right _ (by norm_num))
  have he := roundToDouble_error ((roundToDouble c n).mant * 100)
    (2 ^ (roundToDouble c n).scale) (by positivity) hfuel2
  have hval : (((roundToDouble c n).mant * 100 : ℕ) : ℚ) /
      ((2 ^ (roundToDouble c n).scale : ℕ) : ℚ) = 100 * (roundToDouble c n).val := by
    simp only [Double.val]
    push_cast
    ring
  rw [hval] at he
  simp only [fmul, fdiv]
  generalize (roundToDouble ((roundToDouble c n).mant * 100)
    (2 ^ (roundToDouble c n).scale)).val = e at he
  generalize (roundToDouble c n).val = d at hd he
  have hx0 : (0 : ℚ) ≤ (c : ℚ) / n := by positivity
  have hx1 : (c : ℚ) / n ≤ 1 := by
    rw [div_le_one (by exact_mod_cast hn0)]
    exact_mod_cast hcn
  have hx : 100 * (c : ℚ) / n = 100 * ((c : ℚ) / n) := by ring
  rw [hx]
  generalize (c : ℚ) / n = x at hd hx0 hx1
  rw [abs_le] at hd he ⊢
  obtain ⟨hd1, hd2⟩ := hd
  obtain ⟨he1, he2⟩ := he
  have hu : (0 : ℚ) < 1 / 2 ^ 53 := by positivity
  have hu1 : (1 : ℚ) / 2 ^ 53 ≤ 1 := by
    rw [div_le_one (by positivity)]
    norm_num
  rw [div_eq_mul_one_div x] at hd1 hd2
  rw [div_eq_mul_one_div (100 * d)] at he1 he2
  rw [div_eq_mul_one_div (300 : ℚ)]
  generalize (1 : ℚ) / 2 ^ 53 = u at *
  have hxu : x * u ≤ u := by nlinarith
  have hdu : d * u ≤ 2 * u := by nlinarith
  constructor <;> nlinarith

/-- The function `mathRound` is the floor of the value plus one half. -/
theorem mathRound_bounds (d : Double) :
    (mathRound d : ℚ) ≤ d.val + 1 / 2 ∧ d.val + 1 / 2 < (mathRound d : ℚ) + 1 := by
  have hpos : 0 < 2 ^ (d.scale + 1) := by positivity
  have h1 : 2 ^ (d.scale + 1) * mathRound d ≤ 2 * d.mant + 2 ^ d.scale :=
    Nat.mul_div_le _ _
  have h2 : 2 * d.mant + 2 ^ d.scale < 2 ^ (d.scale + 1) * (mathRound d + 1) :=
    Nat.lt_mul_div_succ _ hpos
  have h1' : (2 : ℚ) ^ (d.scale + 1) * mathRound d ≤ 2 * d.mant + 2 ^ d.scale := by
    exact_mod_cast h1
  have h2' : (2 : ℚ) * d.mant + 2 ^ d.scale < 2 ^ (d.scale + 1) * (mathRound d + 1) := by
    exact_mod_cast h2
  rw [pow_succ] at h1' h2'
  simp only [Double.val]
  have hK : (0 : ℚ) < 2 ^ d.scale := by positivity
  generalize (2 : ℚ) ^ d.scale = K at h1' h2' hK
  generalize (mathRound d : ℚ) = M at h1' h2'
  generalize (d.mant : ℚ) = m at h1' h2'
  constructor
  · rw [← sub_le_iff_le_add, le_div_iff₀ hK]
    linarith
  · have hlt : m / K < M + 1 / 2 := by
      rw [div_lt_iff₀ hK]
      linarith
    linarith

theorem completedCount_le (st : AppState) : completedCount st ≤ st.todos.length :=
  List.length_filter_le _ _

theorem roundHalfEven_zero (b : Nat) (hb : 0 < b) : roundHalfEven 0 b = 0 := by
  simp only [roundHalfEven, Nat.zero_div, Nat.zero_mod, Nat.mul_zero]
  rw [if_pos hb]

theorem completionRate_zero_completed (st : AppState) (hn : 0 < st.todos.length)
    (hc : completedCount st = 0) : completionRate st = 0 := by
  have hn' : 0 < st.todos.length := hn
  simp only [completionRate, hc, gt_iff_lt, hn', if_true, fdiv, fmul, roundToDouble]
  rw [normShift_zero _ hn]
  simp only [Nat.zero_mul]
  rw [roundHalfEven_zero _ hn]
  simp only [Nat.zero_mul]
  rw [normShift_zero _ (by positivity), roundHalfEven_zero _ (by positivity)]
  simp only [mathRound, Nat.mul_zero, Nat.zero_add]
  apply Nat.div_eq_of_lt
  exact Nat.pow_lt_pow_right (by decide) (by omega)

/-- The computed rate against the exact half-up rounding `(200 c + n) / (2 n)`: they
agree unless the exact percentage is a half-integer, where the computed rate may be
the lower neighbour. -/
theorem completionRate_cases (st : AppState) (hn : 0 < st.todos.length)
    (hlen : st.todos.length < 2 ^ 32) :
    (completionRate st = (200 * completedCount st + st.todos.length) / (2 * st.todos.length) ∨
      ((200 * completedCount st + st.todos.length) % (2 * st.todos.length) = 0 ∧
        completionRate st + 1 =
          (200 * completedCount st + st.todos.length) / (2 * st.todos.length))) := by
  have hcn := completedCount_le st
  rcases Nat.eq_zero_or_pos (completedCount st) with hc | hc
  · left
    rw [completionRate_zero_completed st hn hc, hc]
    symm
    apply Nat.div_eq_of_lt
    omega
  have hrate : completionRate st =
      mathRound (fmul (fdiv (completedCount st) st.todos.length) 100) := by
    simp only [completionRate, gt_iff_lt, hn, if_true]
  rw [hrate]
  have hclose := fmul_fdiv_close (completedCount st) st.todos.length hc hcn hlen
  obtain ⟨hM1, hM2⟩ := mathRound_bounds (fmul (fdiv (completedCount st) st.todos.length) 100)
  generalize mathRound (fmul (fdiv (completedCount st) st.todos.length) 100) = M at hM1 hM2
  generalize (fmul (fdiv (completedCount st) st.todos.length) 100).val = y at hclose hM1 hM2
  generalize completedCount st = c at hc hcn hclose
  generalize st.todos.length = n at hn hlen hcn hclose
  have hdm := Nat.div_add_mod (200 * c + n) (2 * n)
  have hr := Nat.mod_lt (200 * c + n) (show 0 < 2 * n by omega)
  generalize (200 * c + n) / (2 * n) = R at hdm
  generalize (200 * c + n) % (2 * n) = r at hdm hr
  have hnq : (0 : ℚ) < n := by exact_mod_cast hn
  have hdm' : (2 : ℚ) * n * R + r = 200 * c + n := by exact_mod_cast hdm
  have hX : 100 * (c : ℚ) / n + 1 / 2 = R + r / (2 * n) := by
    have h2 : (100 * (c : ℚ) * 2 + n) = R * (2 * n) + r := by linarith
    field_simp
    rw [h2]
    ring
  have hδ : (300 : ℚ) / 2 ^ 53 < 1 / (2 * n) := by
    rw [div_lt_div_iff₀ (by positivity) (by positivity)]
    have h32 : (n : ℚ) < 2 ^ 32 := by exact_mod_cast hlen
    have e32 : (2 : ℚ) ^ 32 = 4294967296 := by norm_num
    rw [e32] at h32
    norm_num
    linarith
  rw [abs_le] at hclose
  obtain ⟨hc1, hc2⟩ := hclose
  have hrq : (r : ℚ) < 2 * n := by exact_mod_cast hr
  have hfrac1 : (r : ℚ) / (2 * n) < 1 := by
    rw [div_lt_one (by positivity)]
    exact hrq
  rcases Nat.eq_zero_or_pos r with hr0 | hrpos
  · rw [hr0] at hX
    simp only [Nat.cast_zero, zero_div, add_zero] at hX
    have hn1 : (1 : ℚ) / (2 * n) ≤ 1 / 2 := by
      rw [div_le_div_iff₀ (by positivity) (by positivity)]
      have : (1 : ℚ) ≤ n := by exact_mod_cast hn
      linarith
    have hMR : (M : ℚ) < R + 1 := by linarith
    have hRM : (R : ℚ) < M + 2 := by linarith
    have hMR' : M < R + 1 := by exact_mod_cast hMR
    have hRM' : R < M + 2 := by exact_mod_cast hRM
    rcases Nat.lt_or_ge M R with hlt | hge
    · right
      exact ⟨hr0, by omega⟩
    · left
      omega
  · left
    have hfa : (1 : ℚ) / (2 * n) ≤ r / (2 * n) := by
      apply div_le_div_of_nonneg_right _ (by positivity)
      exact_mod_cast hrpos
    have hfb : (r : ℚ) / (2 * n) + 1 / (2 * n) ≤ 1 := by
      rw [← add_div, div_le_one (by positivity)]
      have : r + 1 ≤ 2 * n := hr
      exact_mod_cast this
    have hMR : (M : ℚ) < R + 1 := by linarith
    have hRM : (R : ℚ) < M + 1 := by linarith
    have hMR' : M < R + 1 := by exact_mod_cast hMR
    have hRM' : R < M + 1 := by exact_mod_cast hRM
    omega

/-! ## Hydration -/

/-- C3 (as stated, refuted): stored strings that are not JSON make the initialiser
end in the `SyntaxError` of `JSON.parse` instead of yielding the empty list. -/
theorem C3_counterexample :
    JSON.parse "\x7b" = .error .syntaxError ∧
      initialTodos (some "\x7b") = .error .syntaxError ∧
      initialTodos (some "oops") = .error .syntaxError ∧
      initialTodos (some "[1,") = .error .syntaxError :=
  ⟨rfl, rfl, rfl, rfl⟩

/-- C3 (amended): the initial collection is the empty list when the key is missing
or the stored string is empty; for every other stored string the initialiser returns
exactly the outcome of `JSON.parse`, so a string that cannot be parsed makes the
`SyntaxError` propagate and no collection is produced. -/
theorem C3_initialTodos_cases (saved : Option String) :
    (saved = none → initialTodos saved = .ok (.array [])) ∧
      (saved = some "" → initialTodos saved = .ok (.array [])) ∧
      (∀ s, saved = some s → s ≠ "" → initialTodos saved = JSON.parse s) ∧
      (∀ s e, saved = some s → s ≠ "" → JSON.parse s = .error e →
        initialTodos saved = .error e) := by
  have hparse : ∀ s : String, s ≠ "" → initialTodos (some s) = JSON.parse s := by
    intro s hs
    have hdata : s.data ≠ [] := by
      intro h
      apply hs
      cases s
      simp_all
    have ht : truthy s = true := by
      simpa [truthy] using hdata
    simp [initialTodos, ht]
  refine ⟨?_, ?_, ?_, ?_⟩
  · rintro rfl; rfl
  · rintro rfl; rfl
  · rintro s rfl hs; exact hparse s hs
  · rintro s e rfl hs he; rw [hparse s hs, he]

theorem C3_initialTodos_cases_witness :
    initialTodos none = .ok (.array []) ∧
      initialTodos (some "") = .ok (.array []) ∧
      initialTodos (some "[1,") = .error .syntaxError :=
  ⟨(C3_initialTodos_cases none).1 rfl,
   (C3_initialTodos_cases (some "")).2.1 rfl,
   (C3_initialTodos_cases (some "[1,")).2.2.2 "[1," .syntaxError rfl (by decide) rfl⟩

/-! ## Statistics -/

/-- C10 (as stated, refuted): with 23 of 40 tasks completed the exact percentage is
57.5, which rounds half-up to 58 = ⌊(200 * 23 + 40) / (2 * 40)⌋, while the
double-precision product is below 57.5 and `completionRate` is 57. -/
theorem C10_counterexample :
    (sampleState 23 40).todos.length = 40 ∧
      completedCount (sampleState 23 40) = 23 ∧
      completionRate (sampleState 23 40) = 57 ∧
      (200 * completedCount (sampleState 23 40) + (sampleState 23 40).todos.length) /
        (2 * (sampleState 23 40).todos.length) = 58 := by
  decide

/-- C10 (amended): `completedCount` is the number of tasks with `completed = true`,
`activeCount` is the total minus that count, `completionRate` is 0 for the empty
collection; for a non-empty collection of fewer than `2^32` tasks it lies between 0
and 100 and equals `⌊(200 * completed + total) / (2 * total)⌋` unless the exact
percentage is a half-integer, where it is that value or the integer below it; four
tasks with one completed give active 3 and completionRate 25. -/
theorem C10_stats (st : AppState) :
    completedCount st = st.todos.countP (fun t => t.completed) ∧
      activeCount st = st.todos.length - completedCount st ∧
      activeCount st + completedCount st = st.todos.length ∧
      (st.todos.length = 0 → completionRate st = 0) ∧
      (0 < st.todos.length → st.todos.length < 2 ^ 32 →
        completionRate st ≤ 100 ∧
        (completionRate st =
            (200 * completedCount st + st.todos.length) / (2 * st.todos.length) ∨
          ((200 * completedCount st + st.todos.length) % (2 * st.todos.length) = 0 ∧
            completionRate st + 1 =
              (200 * completedCount st + st.todos.length) / (2 * st.todos.length)))) ∧
      (st.todos.length = 4 → completedCount st = 1 →
        activeCount st = 3 ∧ completionRate st = 25) := by
  have hle := completedCount_le st
  refine ⟨?_, rfl, ?_, ?_, ?_, ?_⟩
  · simp only [completedCount, List.countP_eq_length_filter]
  · simp only [activeCount]; omega
  · intro h0
    simp [completionRate, h0]
  · intro hn hlen
    have hcases := completionRate_cases st hn hlen
    refine ⟨?_, hcases⟩
    have hR : (200 * completedCount st + st.todos.length) / (2 * st.todos.length) ≤ 100 := by
      apply Nat.le_of_lt_succ
      rw [Nat.div_lt_iff_lt_mul (by omega)]
      omega
    rcases hcases with h | ⟨_, h⟩ <;> omega
  · intro h4 h1
    refine ⟨by simp only [activeCount]; omega, ?_⟩
    simp only [completionRate, h4, h1]
    decide

theorem C10_stats_witness :
    activeCount (sampleState 1 4) = 3 ∧ completionRate (sampleState 1 4) = 25 ∧
      completionRate (sampleState 2 3) = 67 ∧ completionRate (sampleState 0 0) = 0 :=
  ⟨((C10_stats (sampleState 1 4)).2.2.2.2.2 (by decide) (by decide)).1,
   ((C10_stats (sampleState 1 4)).2.2.2.2.2 (by decide) (by decide)).2,
   by
    have h := ((C10_stats (sampleState 2 3)).2.2.2.2.1 (by decide) (by decide)).2
    rcases h with h | ⟨h, _⟩
    · rw [h]; decide
    · exact absurd h (by decide),
   (C10_stats (sampleState 0 0)).2.2.2.1 (by decide)⟩

end TodoApp
